import Mathlib

/-!
Verification of the Regex Introspection Engine of the `rgx` repository.

Two components are embedded and verified:

* the **Pattern Span Tokenizer**, the scanning loop of `colorize_regex`
  (`src/output.rs`).  The Rust function walks the pattern's character
  vector with an index `i`, classifies a run of one or more characters at
  each step, and appends the styled text of that run to the output.  The
  embedding keeps the control flow exactly and records, instead of styled
  text, the half-open span `[start, stop)` of each emitted run together
  with its category (the category ↔ color correspondence is fixed by the
  spec: cyan = CharClassShorthand, red = Anchor, yellow = Quantifier /
  Alternation / QuantifierRange, magenta = CharacterSet, green =
  GroupDelimiter, uncolored = Literal);

* the **Match Result Normalizer**, `TestCommand::test_pattern`
  (`src/commands/test.rs`).  The external `regex` crate is modelled as an
  abstract collaborator (`CompiledRegex`): a number of capture slots, a
  name table, and a capture function returning per-slot offsets, exactly
  the interface the Rust code consumes (`capture_names`, `captures`,
  `Captures::get`, `Match::{start, end, as_str}`).  `Match::as_str` is by
  the crate's construction the input slice at the match offsets, which the
  model reflects by deriving slot text from the offsets.

Patterns and inputs are `List Char`, matching Rust's `chars()` iteration
for the tokenizer; offsets count those characters.
-/

namespace Rgx

/-- Span categories of the tokenizer, one per color used by
`colorize_regex` plus `Literal` for uncolored output. -/
inductive Category where
  | CharClassShorthand : Category
  | Anchor : Category
  | Quantifier : Category
  | Alternation : Category
  | QuantifierRange : Category
  | CharacterSet : Category
  | GroupDelimiter : Category
  | Literal : Category
deriving DecidableEq, Repr

/-- One emitted span: half-open character offsets into the pattern plus a
category. -/
structure Span where
  start : Nat
  stop : Nat
  cat : Category
deriving DecidableEq, Repr

instance : Inhabited Span := ⟨⟨0, 0, Category.Literal⟩⟩

/-- Classification of the character following a backslash, the two match
arms of `colorize_regex` lines 18–31: `d D w W s S` are cyan
(CharClassShorthand), `b B A z Z` are red (Anchor), anything else is
uncolored (Literal). -/
def escCategory (c : Char) : Category :=
  if c = 'd' ∨ c = 'D' ∨ c = 'w' ∨ c = 'W' ∨ c = 's' ∨ c = 'S' then
    Category.CharClassShorthand
  else if c = 'b' ∨ c = 'B' ∨ c = 'A' ∨ c = 'z' ∨ c = 'Z' then
    Category.Anchor
  else
    Category.Literal

/-- The quantifier-brace scan of `colorize_regex` lines 59–62:
`while end < chars.len() && chars[end] != '}' { end += 1 }`.
Returns the final value of `end`. -/
def scanBrace (chars : List Char) (e : Nat) : Nat :=
  if _h : e < chars.length then
    if chars.getD e ' ' = '}' then e
    else scanBrace chars (e + 1)
  else e
termination_by chars.length - e

/-- The character-set scan loop of `colorize_regex` lines 83–89:
`while end < chars.len() && chars[end] != ']'` where a `\` with a
following character advances by two, anything else by one.  Returns the
final value of `end`. -/
def scanSet (chars : List Char) (e : Nat) : Nat :=
  if _h : e < chars.length then
    if chars.getD e ' ' = ']' then e
    else if chars.getD e ' ' = '\\' ∧ e + 1 < chars.length then
      scanSet chars (e + 2)
    else scanSet chars (e + 1)
  else e
termination_by chars.length - e

/-- The two conditional advances before the character-set scan loop,
`colorize_regex` lines 73–81: skip a leading `^` (negation), then skip a
`]` standing as the first content character (a literal `]`). -/
def setScanStart (chars : List Char) (e : Nat) : Nat :=
  let e1 := if e < chars.length ∧ chars.getD e ' ' = '^' then e + 1 else e
  if e1 < chars.length ∧ chars.getD e1 ' ' = ']' then e1 + 1 else e1

/-- One iteration of the `while i < chars.len()` loop of `colorize_regex`
(lines 12–113): the category of the run emitted at position `i` and the
next value of `i`.  The branch order is the source's order; a `{` or `[`
whose scan fails to find a terminator falls through (the source's inner
`if end < chars.len()` guard) to the default single-character `Literal`
case, since `{` and `[` match none of the later branches. -/
def step (chars : List Char) (i : Nat) : Category × Nat :=
  let c := chars.getD i ' '
  if c = '\\' ∧ i + 1 < chars.length then
    (escCategory (chars.getD (i + 1) ' '), i + 2)
  else if c = '^' ∨ c = '$' then
    (Category.Anchor, i + 1)
  else if c = '+' ∨ c = '*' ∨ c = '?' then
    (Category.Quantifier, i + 1)
  else if c = '|' then
    (Category.Alternation, i + 1)
  else if c = '{' then
    let e := scanBrace chars (i + 1)
    if e < chars.length then (Category.QuantifierRange, e + 1)
    else (Category.Literal, i + 1)
  else if c = '[' then
    let e := scanSet chars (setScanStart chars (i + 1))
    if e < chars.length then (Category.CharacterSet, e + 1)
    else (Category.Literal, i + 1)
  else if c = '(' ∨ c = ')' then
    (Category.GroupDelimiter, i + 1)
  else
    (Category.Literal, i + 1)

theorem scanBrace_ge (chars : List Char) (e : Nat) : e ≤ scanBrace chars e := by
  rw [scanBrace]
  split
  · split
    · exact Nat.le_refl e
    · exact Nat.le_trans (Nat.le_succ e) (scanBrace_ge chars (e + 1))
  · exact Nat.le_refl e
termination_by chars.length - e

theorem scanBrace_le (chars : List Char) (e : Nat) (h : e ≤ chars.length) :
    scanBrace chars e ≤ chars.length := by
  rw [scanBrace]
  split
  · split
    · exact h
    · next h' _ => exact scanBrace_le chars (e + 1) h'
  · exact h
termination_by chars.length - e

theorem scanBrace_found (chars : List Char) (e : Nat) :
    scanBrace chars e < chars.length → chars.getD (scanBrace chars e) ' ' = '}' := by
  rw [scanBrace]
  split
  · split
    · intro _; assumption
    · exact scanBrace_found chars (e + 1)
  · next h => intro h'; omega
termination_by chars.length - e

theorem scanBrace_not_before (chars : List Char) (e : Nat) :
    ∀ k, e ≤ k → k < scanBrace chars e → chars.getD k ' ' ≠ '}' := by
  intro k hek hk
  rw [scanBrace] at hk
  split at hk
  · split at hk
    · omega
    · next hne =>
      rcases Nat.lt_or_ge k (e + 1) with hke | hke
      · have hkeq : k = e := by omega
        rw [hkeq]; exact hne
      · exact scanBrace_not_before chars (e + 1) k hke hk
  · omega
termination_by chars.length - e

theorem scanSet_ge (chars : List Char) (e : Nat) : e ≤ scanSet chars e := by
  rw [scanSet]
  split
  · split
    · exact Nat.le_refl e
    · split
      · exact Nat.le_trans (by omega) (scanSet_ge chars (e + 2))
      · exact Nat.le_trans (Nat.le_succ e) (scanSet_ge chars (e + 1))
  · exact Nat.le_refl e
termination_by chars.length - e

theorem scanSet_le (chars : List Char) (e : Nat) (h : e ≤ chars.length) :
    scanSet chars e ≤ chars.length := by
  rw [scanSet]
  split
  · next hlt =>
    split
    · exact h
    · split
      · next h2 => exact scanSet_le chars (e + 2) h2.2
      · exact scanSet_le chars (e + 1) hlt
  · exact h
termination_by chars.length - e

theorem scanSet_found (chars : List Char) (e : Nat) :
    scanSet chars e < chars.length → chars.getD (scanSet chars e) ' ' = ']' := by
  rw [scanSet]
  split
  · split
    · intro _; assumption
    · split
      · exact scanSet_found chars (e + 2)
      · exact scanSet_found chars (e + 1)
  · next h => intro h'; omega
termination_by chars.length - e

/-- Within the set scan, a backslash with a character after it is skipped
as one two-character unit: the scan jumps from `e` straight to `e + 2`,
never testing position `e + 1` against `]`. -/
theorem scanSet_escape_skip (chars : List Char) (e : Nat)
    (h1 : e < chars.length) (hb : chars.getD e ' ' = '\\')
    (h2 : e + 1 < chars.length) :
    scanSet chars e = scanSet chars (e + 2) := by
  conv_lhs => rw [scanSet]
  rw [dif_pos h1, if_neg (by rw [hb]; decide), if_pos ⟨hb, h2⟩]

theorem setScanStart_ge (chars : List Char) (e : Nat) : e ≤ setScanStart chars e := by
  simp only [setScanStart]
  split_ifs <;> omega

theorem setScanStart_le (chars : List Char) (e : Nat) (h : e ≤ chars.length) :
    setScanStart chars e ≤ chars.length := by
  simp only [setScanStart]
  split_ifs <;> omega

theorem step_gt (chars : List Char) (i : Nat) (h : i < chars.length) :
    i < (step chars i).2 := by
  simp only [step]
  split_ifs <;> dsimp only <;>
    first
      | omega
      | (have hb := scanBrace_ge chars (i + 1); omega)
      | (have h1 := setScanStart_ge chars (i + 1)
         have h2 := scanSet_ge chars (setScanStart chars (i + 1))
         omega)

theorem step_le (chars : List Char) (i : Nat) (h : i < chars.length) :
    (step chars i).2 ≤ chars.length := by
  simp only [step]
  split_ifs <;> dsimp only <;> omega

/-- The full scanning loop of `colorize_regex`: starting at index `i`,
emit one span per iteration of `step` until the index reaches the end of
the pattern.  The Rust function appends each run's styled text; the
embedding records the run's offsets and category instead. -/
def tokenizeFrom (chars : List Char) (i : Nat) : List Span :=
  if h : i < chars.length then
    ⟨i, (step chars i).2, (step chars i).1⟩ :: tokenizeFrom chars (step chars i).2
  else []
termination_by chars.length - i
decreasing_by
  have := step_gt chars i h
  omega

/-- The tokenizer: the scanning loop started at index 0, as in
`colorize_regex`. -/
def tokenize (chars : List Char) : List Span :=
  tokenizeFrom chars 0

/-- The pattern text covered by a span. -/
def spanText (chars : List Char) (s : Span) : List Char :=
  (chars.drop s.start).take (s.stop - s.start)

/-- The span list `spans` partitions the index interval `[i, n)`: the
first span starts at `i`, every span is nonempty and ends where the next
begins, and the last span ends at `n`. -/
def chainFrom (i n : Nat) : List Span → Prop
  | [] => i = n
  | s :: rest => s.start = i ∧ i < s.stop ∧ s.stop ≤ n ∧ chainFrom s.stop n rest

theorem tokenizeFrom_chain (chars : List Char) (i : Nat) (h : i ≤ chars.length) :
    chainFrom i chars.length (tokenizeFrom chars i) := by
  rw [tokenizeFrom]
  split
  · next hlt =>
    have hg := step_gt chars i hlt
    have hl := step_le chars i hlt
    exact ⟨rfl, hg, hl, tokenizeFrom_chain chars (step chars i).2 hl⟩
  · next hge =>
    have : i = chars.length := by omega
    exact this
termination_by chars.length - i
decreasing_by omega

theorem chain_flatten (chars : List Char) :
    ∀ (spans : List Span) (i : Nat), chainFrom i chars.length spans →
      (spans.map (spanText chars)).flatten = chars.drop i := by
  intro spans
  induction spans with
  | nil =>
    intro i h
    have hi : i = chars.length := h
    simp [hi, List.drop_length]
  | cons s rest ih =>
    intro i h
    obtain ⟨hs, hlt, hle, hrest⟩ := h
    rw [List.map_cons, List.flatten_cons, ih s.stop hrest]
    simp only [spanText, hs]
    have h1 : chars.drop s.stop = (chars.drop i).drop (s.stop - i) := by
      rw [List.drop_drop]
      congr 1
      omega
    rw [h1, List.take_append_drop]

theorem chain_bounds (n : Nat) :
    ∀ (spans : List Span) (i : Nat), chainFrom i n spans →
      ∀ s ∈ spans, i ≤ s.start ∧ s.start < s.stop ∧ s.stop ≤ n := by
  intro spans
  induction spans with
  | nil => intro i _ s hs; cases hs
  | cons t rest ih =>
    intro i h s hs
    obtain ⟨ht, hlt, hle, hrest⟩ := h
    rcases List.mem_cons.mp hs with rfl | hs
    · refine ⟨?_, ?_, ?_⟩ <;> omega
    · have h2 := ih t.stop hrest s hs
      omega

theorem chain_adjacent (n : Nat) :
    ∀ (spans : List Span) (i j : Nat), chainFrom i n spans → j + 1 < spans.length →
      (spans.getD (j + 1) default).start = (spans.getD j default).stop := by
  intro spans
  induction spans with
  | nil => intro i j _ hj; simp at hj
  | cons s rest ih =>
    intro i j h hj
    obtain ⟨hs, _, _, hrest⟩ := h
    match j, rest, hrest with
    | 0, [], hrest => simp at hj
    | 0, r :: rest', hrest => exact hrest.1
    | j + 1, rest, hrest =>
      have hj' : j + 1 < rest.length := by simpa using hj
      simpa using ih s.stop j hrest hj'

/-- Offsets of one capture slot within the test input, as the regex
crate's `Match` reports them (`Match::start`, `Match::end`, half-open);
`Match::as_str` is by the crate's construction the input slice over these
offsets. -/
structure MatchSlot where
  start : Nat
  stop : Nat
deriving DecidableEq, Repr

/-- The text of a slot: the test input's characters over `[start, stop)`,
what `Match::as_str` returns. -/
def slotText (input : List Char) (m : MatchSlot) : List Char :=
  (input.drop m.start).take (m.stop - m.start)

/-- The result of one successful `Regex::captures` call: for each slot
index, the matched range when the slot participated (`Captures::get`
returns `None` for a non-participating group). -/
structure EngineCaptures where
  slot : Nat → Option MatchSlot

/-- The compiled-regex collaborator consumed by `test_pattern`: the number
of capture slots (slot 0, the whole match, plus one per capturing group —
the length of the `capture_names` iterator), the declared name of each
slot (`capture_names` yields `None` for positional groups), and the
first-match capture function (`Regex::captures`). -/
structure CompiledRegex where
  slots : Nat
  name : Nat → Option String
  captures : List Char → Option EngineCaptures

/-- The `GroupCapture` struct of `src/commands/test.rs` lines 23–28: its
only fields are the group's index, optional declared name, and matched
text. -/
structure GroupCapture where
  index : Nat
  name : Option String
  value : List Char
deriving DecidableEq, Repr

/-- The `MatchDetails` struct of `src/commands/test.rs` lines 15–21 (the
Rust field `end` is spelled `stop` here; `end` is a Lean keyword). -/
structure MatchDetails where
  full_match : List Char
  groups : List GroupCapture
  start : Nat
  stop : Nat
deriving DecidableEq, Repr

/-- The `GenerateResponse` struct of `src/commands/generate.rs` (the Rust
field `matches` is spelled `match_examples` here; `matches` is a Lean
keyword). -/
structure GenerateResponse where
  pattern : List Char
  match_examples : List (List Char)
  non_matches : List (List Char)
  explanation : List Char
deriving DecidableEq, Repr

/-- The `TestResult` struct of `src/commands/test.rs` lines 6–13 (the
Rust field `matches` is spelled `matched` here — the spec's own data-model
name for it — because `matches` is a Lean keyword). -/
structure TestResult where
  pattern : List Char
  test_input : List Char
  matched : Bool
  match_details : Option MatchDetails
  generated : GenerateResponse
deriving DecidableEq, Repr

/-- The error enum of `src/error.rs`; `InvalidRegex` wraps the regex
engine's diagnostic (`#[from] regex::Error`), applied by the `?` operator
in `test_pattern` line 42. -/
inductive Error where
  | Claude : List Char → Error
  | Parse : List Char → Error
  | Io : List Char → Error
  | InvalidFlags : List Char → Error
  | InvalidRegex : List Char → Error
deriving DecidableEq, Repr

/-- The closure passed to `filter_map` in `test_pattern` lines 51–57: for
slot index `i`, `caps.get(i).map(|m| GroupCapture { index: i, name,
value: m.as_str() })`. -/
def groupOf (regex : CompiledRegex) (caps : EngineCaptures) (input : List Char)
    (i : Nat) : Option GroupCapture :=
  (caps.slot i).map (fun m => ⟨i, regex.name i, slotText input m⟩)

/-- The group list of `test_pattern` lines 47–58:
`regex.capture_names().enumerate().skip(1).filter_map(...)` — slot indices
`1, …, slots - 1` in order, keeping participating slots only. -/
def buildGroups (regex : CompiledRegex) (caps : EngineCaptures) (input : List Char) :
    List GroupCapture :=
  ((List.range regex.slots).drop 1).filterMap (groupOf regex caps input)

/-- The closure body of `test_pattern` lines 44–66 building `MatchDetails`
from one `Captures` value.  `caps.get(0).unwrap()` is modelled by
`Option.getD` with a default slot; `testPatternPanics` states exactly when
that unwrap's `None` branch (a Rust panic) would be taken. -/
def buildDetails (regex : CompiledRegex) (caps : EngineCaptures) (input : List Char) :
    MatchDetails :=
  let full := (caps.slot 0).getD ⟨0, 0⟩
  { full_match := slotText input full
    groups := buildGroups regex caps input
    start := full.start
    stop := full.stop }

/-- The function `TestCommand::test_pattern` (`src/commands/test.rs`
lines 41–75): the
compilation collaborator `newRegex` models `Regex::new`; its error is
wrapped into `Error.InvalidRegex` by `?`; on success the optional match
details are mapped from `regex.captures` and `matches` is their
`is_some`. -/
def test_pattern (newRegex : List Char → Except (List Char) CompiledRegex)
    (test_input : List Char) (generated : GenerateResponse) : Except Error TestResult :=
  match newRegex generated.pattern with
  | Except.error e => Except.error (Error.InvalidRegex e)
  | Except.ok regex =>
    let match_details := (regex.captures test_input).map
      (fun caps => buildDetails regex caps test_input)
    Except.ok
      { pattern := generated.pattern
        test_input := test_input
        matched := match_details.isSome
        match_details := match_details
        generated := generated }

/-- The condition under which the `unwrap` in `test_pattern` line 45 would
panic: compilation succeeded and the engine reported a match, yet slot 0
is absent from the captures. -/
def testPatternPanics (newRegex : List Char → Except (List Char) CompiledRegex)
    (test_input : List Char) (generated : GenerateResponse) : Prop :=
  ∃ regex caps, newRegex generated.pattern = Except.ok regex ∧
    regex.captures test_input = some caps ∧ caps.slot 0 = none

/-- The regex crate's documented guarantee about `Captures`: slot 0, the
whole match, is present in every successful `captures` result. -/
def engineWF (regex : CompiledRegex) : Prop :=
  ∀ input caps, regex.captures input = some caps → (caps.slot 0).isSome = true

/-- Claim C4's reading of the quantifier-brace scan, stated from the
spec's words: the position of the next **unescaped** `}` at or after `e`
(a `\` together with its following character is skipped as a unit), or
`none` when no unescaped `}` exists before the end of the pattern.  The
source's loop (`scanBrace`) has no such escape handling; this definition
exists to exhibit the difference. -/
def specBraceClose (chars : List Char) (e : Nat) : Option Nat :=
  if _h : e < chars.length then
    if chars.getD e ' ' = '}' then some e
    else if chars.getD e ' ' = '\\' ∧ e + 1 < chars.length then
      specBraceClose chars (e + 2)
    else specBraceClose chars (e + 1)
  else none
termination_by chars.length - e

/-- A concrete captures value: slot 0 covers a two-character input, slot 1
its first character. -/
def sampleCapsA : EngineCaptures :=
  ⟨fun i => if i = 0 then some ⟨0, 2⟩ else if i = 1 then some ⟨0, 1⟩ else none⟩

/-- Like `sampleCapsA` but slot 1 covers the second character instead. -/
def sampleCapsB : EngineCaptures :=
  ⟨fun i => if i = 0 then some ⟨0, 2⟩ else if i = 1 then some ⟨1, 2⟩ else none⟩

/-- A concrete two-slot engine that reports `sampleCapsA` on every
input. -/
def sampleRegex : CompiledRegex := ⟨2, fun _ => none, fun _ => some sampleCapsA⟩

/-- A concrete engine that never matches. -/
def noMatchRegex : CompiledRegex := ⟨1, fun _ => none, fun _ => none⟩

/-- A concrete generated-pattern record. -/
def sampleGen : GenerateResponse := ⟨['(', 'a', ')'], [], [], []⟩

/-- A compilation collaborator that always succeeds with `sampleRegex`. -/
def sampleNewRegex : List Char → Except (List Char) CompiledRegex :=
  fun _ => Except.ok sampleRegex

/-- A compilation collaborator that always succeeds with `noMatchRegex`. -/
def noMatchNewRegex : List Char → Except (List Char) CompiledRegex :=
  fun _ => Except.ok noMatchRegex

/-- A compilation collaborator that always fails with the diagnostic
`bad`. -/
def failNewRegex : List Char → Except (List Char) CompiledRegex :=
  fun _ => Except.error ['b', 'a', 'd']

theorem groupOf_eq_some (regex : CompiledRegex) (caps : EngineCaptures)
    (input : List Char) (i : Nat) (gc : GroupCapture)
    (h : groupOf regex caps input i = some gc) :
    gc.index = i ∧ ∃ m, caps.slot i = some m ∧
      gc = ⟨i, regex.name i, slotText input m⟩ := by
  cases hs : caps.slot i with
  | none => simp [groupOf, hs] at h
  | some m =>
    simp only [groupOf, hs, Option.map_some', Option.some.injEq] at h
    rw [← h]
    exact ⟨rfl, m, rfl, rfl⟩

theorem groupOf_eq_none (regex : CompiledRegex) (caps : EngineCaptures)
    (input : List Char) (i : Nat) (h : caps.slot i = none) :
    groupOf regex caps input i = none := by
  simp [groupOf, h]

theorem filterMap_groupOf_filter_of_not_mem (regex : CompiledRegex)
    (caps : EngineCaptures) (input : List Char) :
    ∀ (L : List Nat) (i : Nat), i ∉ L →
      ((L.filterMap (groupOf regex caps input)).filter
        (fun gc => gc.index == i)) = [] := by
  intro L
  induction L with
  | nil => intro i _; rfl
  | cons j L ih =>
    intro i hmem
    have hij : j ≠ i := fun hh => hmem (hh ▸ List.mem_cons_self j L)
    have htail : i ∉ L := fun hh => hmem (List.mem_cons_of_mem j hh)
    rw [List.filterMap_cons]
    cases hg : groupOf regex caps input j with
    | none => exact ih i htail
    | some gc =>
      have hidx : gc.index = j := (groupOf_eq_some regex caps input j gc hg).1
      rw [List.filter_cons]
      have hbeq : (gc.index == i) = false := by
        rw [hidx]
        exact beq_false_of_ne hij
      rw [hbeq]
      simp only [Bool.false_eq_true, if_false]
      exact ih i htail

theorem filterMap_groupOf_filter_of_mem (regex : CompiledRegex)
    (caps : EngineCaptures) (input : List Char) :
    ∀ (L : List Nat) (i : Nat) (m : MatchSlot), L.Nodup → i ∈ L →
      caps.slot i = some m →
      ((L.filterMap (groupOf regex caps input)).filter
        (fun gc => gc.index == i)) = [⟨i, regex.name i, slotText input m⟩] := by
  intro L
  induction L with
  | nil => intro i m _ hmem _; cases hmem
  | cons j L ih =>
    intro i m hnd hmem hslot
    rcases List.mem_cons.mp hmem with rfl | hmem'
    · have hg : groupOf regex caps input i =
          some ⟨i, regex.name i, slotText input m⟩ := by
        simp [groupOf, hslot]
      rw [List.filterMap_cons, hg, List.filter_cons]
      simp only [beq_self_eq_true, if_true]
      rw [filterMap_groupOf_filter_of_not_mem regex caps input L i
        (List.nodup_cons.mp hnd).1]
    · have hij : j ≠ i := by
        rintro rfl
        exact (List.nodup_cons.mp hnd).1 hmem'
      rw [List.filterMap_cons]
      cases hg : groupOf regex caps input j with
      | none => exact ih i m (List.nodup_cons.mp hnd).2 hmem' hslot
      | some gc =>
        have hidx : gc.index = j := (groupOf_eq_some regex caps input j gc hg).1
        rw [List.filter_cons]
        have hbeq : (gc.index == i) = false := by
          rw [hidx]
          exact beq_false_of_ne hij
        rw [hbeq]
        simp only [Bool.false_eq_true, if_false]
        exact ih i m (List.nodup_cons.mp hnd).2 hmem' hslot

theorem filterMap_groupOf_map_index (regex : CompiledRegex)
    (caps : EngineCaptures) (input : List Char) :
    ∀ L : List Nat,
      (L.filterMap (groupOf regex caps input)).map GroupCapture.index =
        L.filter (fun i => (caps.slot i).isSome) := by
  intro L
  induction L with
  | nil => rfl
  | cons j L ih =>
    rw [List.filterMap_cons, List.filter_cons]
    cases hs : caps.slot j with
    | none =>
      simp only [groupOf, hs, Option.map_none', Option.isSome_none,
        Bool.false_eq_true, if_false]
      exact ih
    | some m =>
      simp only [groupOf, hs, Option.map_some', Option.isSome_some, if_true]
      rw [List.map_cons]
      exact congrArg (List.cons j) ih

theorem mem_range_drop_one (n i : Nat) :
    i ∈ (List.range n).drop 1 ↔ 1 ≤ i ∧ i < n := by
  cases n with
  | zero => simp
  | succ m =>
    rw [List.range_succ_eq_map, List.drop_succ_cons, List.drop_zero]
    simp only [List.mem_map, List.mem_range]
    constructor
    · rintro ⟨a, ha, rfl⟩
      omega
    · rintro ⟨h1, h2⟩
      exact ⟨i - 1, by omega, by omega⟩

theorem range_drop_one_nodup (n : Nat) : ((List.range n).drop 1).Nodup :=
  List.Nodup.sublist (List.drop_sublist 1 (List.range n)) (List.nodup_range n)

theorem buildGroups_pairwise (regex : CompiledRegex) (caps : EngineCaptures)
    (input : List Char) :
    List.Pairwise (fun a b => a < b)
      ((buildGroups regex caps input).map GroupCapture.index) := by
  rw [buildGroups, filterMap_groupOf_map_index]
  exact List.Pairwise.sublist
    (List.Sublist.trans (List.filter_sublist _) (List.drop_sublist 1 _))
    (List.pairwise_lt_range regex.slots)

theorem mem_buildGroups (regex : CompiledRegex) (caps : EngineCaptures)
    (input : List Char) (gc : GroupCapture)
    (h : gc ∈ buildGroups regex caps input) :
    1 ≤ gc.index ∧ gc.index < regex.slots ∧
      ∃ m, caps.slot gc.index = some m ∧
        gc = ⟨gc.index, regex.name gc.index, slotText input m⟩ := by
  rw [buildGroups] at h
  rcases List.mem_filterMap.mp h with ⟨i, hiL, hg⟩
  obtain ⟨hidx, m, hm, hgc⟩ := groupOf_eq_some regex caps input i gc hg
  rcases (mem_range_drop_one regex.slots i).mp hiL with ⟨h1, h2⟩
  subst hidx
  exact ⟨h1, h2, m, hm, hgc⟩

/-- Claim C1: for every pattern (malformed ones included) the tokenizer
returns normally — it is a total function — and its spans partition the
pattern exactly: `chainFrom 0 (length)` states the spans are contiguous
from offset 0 to the end (each span's `stop` is the next one's `start`,
so they are pairwise non-overlapping and cover every character), the
concatenation of the span texts in emitted order reproduces the pattern,
every span is nonempty and in bounds, and adjacent spans meet exactly. -/
theorem tokenize_partition (chars : List Char) :
    chainFrom 0 chars.length (tokenize chars) ∧
    ((tokenize chars).map (spanText chars)).flatten = chars ∧
    (∀ s ∈ tokenize chars, s.start < s.stop ∧ s.stop ≤ chars.length) ∧
    (∀ j, j + 1 < (tokenize chars).length →
      ((tokenize chars).getD (j + 1) default).start =
        ((tokenize chars).getD j default).stop) := by
  have hc := tokenizeFrom_chain chars 0 (Nat.zero_le chars.length)
  refine ⟨hc, ?_, ?_, ?_⟩
  · simpa using chain_flatten chars (tokenizeFrom chars 0) 0 hc
  · intro s hs
    have hb := chain_bounds chars.length (tokenize chars) 0 hc s hs
    exact ⟨hb.2.1, hb.2.2⟩
  · intro j hj
    exact chain_adjacent chars.length (tokenize chars) 0 j hc hj

/-- Claim C10: the scanner makes strict progress — from any in-bounds
index, one `step` moves to a strictly larger index that never passes the
end of the pattern, so the scanning loop (`tokenizeFrom`, well-founded on
`chars.length - i`) terminates on every input. -/
theorem step_progress (chars : List Char) (i : Nat) (h : i < chars.length) :
    i < (step chars i).2 ∧ (step chars i).2 ≤ chars.length :=
  ⟨step_gt chars i h, step_le chars i h⟩

theorem step_progress_witness :
    0 < (step ('a' :: []) 0).2 ∧ (step ('a' :: []) 0).2 ≤ 1 :=
  step_progress ('a' :: []) 0 (by decide)

/-- Claim C6: a backslash followed by another character is consumed as one
two-character span whose category is `escCategory` of the second
character — `d D w W s S` give CharClassShorthand, `b B A z Z` give
Anchor, any other second character gives Literal — and a backslash that is
the last character of the pattern is emitted alone as a one-character
Literal span. -/
theorem escape_step (chars : List Char) (i : Nat) (h : i < chars.length)
    (hc : chars.getD i ' ' = '\\') :
    (i + 1 < chars.length →
      step chars i = (escCategory (chars.getD (i + 1) ' '), i + 2)) ∧
    (chars.length ≤ i + 1 → step chars i = (Category.Literal, i + 1)) ∧
    (∀ c, c ∈ ('d' :: 'D' :: 'w' :: 'W' :: 's' :: 'S' :: []) →
      escCategory c = Category.CharClassShorthand) ∧
    (∀ c, c ∈ ('b' :: 'B' :: 'A' :: 'z' :: 'Z' :: []) →
      escCategory c = Category.Anchor) ∧
    (∀ c, c ∉ ('d' :: 'D' :: 'w' :: 'W' :: 's' :: 'S' ::
        'b' :: 'B' :: 'A' :: 'z' :: 'Z' :: []) →
      escCategory c = Category.Literal) := by
  refine ⟨?_, ?_, ?_, ?_, ?_⟩
  · intro h2
    simp only [step]
    rw [hc]
    simp [h2]
  · intro h2
    simp only [step]
    rw [hc]
    simp [Nat.not_lt.mpr h2]
  · intro c hcm
    fin_cases hcm <;> rfl
  · intro c hcm
    fin_cases hcm <;> rfl
  · intro c hcm
    simp only [List.mem_cons, List.not_mem_nil, or_false, not_or] at hcm
    obtain ⟨h1, h2, h3, h4, h5, h6, h7, h8, h9, h10, h11⟩ := hcm
    simp [escCategory, h1, h2, h3, h4, h5, h6, h7, h8, h9, h10, h11]

theorem escape_step_witness :
    step ('\\' :: 'd' :: []) 0 = (Category.CharClassShorthand, 2) := by
  have he := escape_step ('\\' :: 'd' :: []) 0 (by decide) (by decide)
  have := he.1 (by decide)
  simpa [escCategory] using this

/-- Claim C4 (amended): at an unescaped `{`, the scan looks for the next
`}` — **whether or not it is preceded by a backslash** (the source's loop
has no escape handling). If one is found, the whole `{...}` run, braces
included, is one QuantifierRange span whose terminator is the first `}`
at or after the `{`; if no `}` exists up to the end of the pattern, the
`{` alone is a one-character Literal span and scanning resumes from the
next character. -/
theorem brace_step (chars : List Char) (i : Nat) (h : i < chars.length)
    (hc : chars.getD i ' ' = '{') :
    (scanBrace chars (i + 1) < chars.length →
      step chars i = (Category.QuantifierRange, scanBrace chars (i + 1) + 1) ∧
      chars.getD (scanBrace chars (i + 1)) ' ' = '}' ∧
      i + 1 ≤ scanBrace chars (i + 1) ∧
      (∀ k, i + 1 ≤ k → k < scanBrace chars (i + 1) →
        chars.getD k ' ' ≠ '}')) ∧
    (chars.length ≤ scanBrace chars (i + 1) →
      step chars i = (Category.Literal, i + 1) ∧
      (∀ k, i + 1 ≤ k → k < chars.length → chars.getD k ' ' ≠ '}')) := by
  constructor
  · intro hf
    refine ⟨?_, scanBrace_found chars (i + 1) hf, scanBrace_ge chars (i + 1),
      scanBrace_not_before chars (i + 1)⟩
    simp only [step]
    rw [hc]
    simp [hf]
  · intro hnf
    constructor
    · simp only [step]
      rw [hc]
      simp [Nat.not_lt.mpr hnf]
    · intro k h1 h2
      exact scanBrace_not_before chars (i + 1) k h1 (by omega)

theorem brace_step_witness :
    step ('{' :: '2' :: '}' :: []) 0 = (Category.QuantifierRange, 3) := by
  have hb := brace_step ('{' :: '2' :: '}' :: []) 0 (by decide) (by decide)
  have h2 : scanBrace ('{' :: '2' :: '}' :: []) (0 + 1) = 2 := by
    simp [scanBrace]
  have := (hb.1 (by rw [h2]; decide)).1
  rw [h2] at this
  exact this

/-- Claim C4 counterexample: in the pattern `{\}` the only `}` is escaped
(preceded by `\`), so under the claim's scan — `specBraceClose`, which
looks for the next **unescaped** `}` — no terminator exists and the `{`
would have to be emitted alone as a Literal span.  The source's scan
(`scanBrace`) stops at that escaped `}` anyway, and the tokenizer emits
the whole `{\}` as a single QuantifierRange span. -/
theorem brace_unescaped_counterexample :
    tokenize ('{' :: '\\' :: '}' :: []) = ⟨0, 3, Category.QuantifierRange⟩ :: [] ∧
    specBraceClose ('{' :: '\\' :: '}' :: []) 1 = none ∧
    scanBrace ('{' :: '\\' :: '}' :: []) 1 = 2 := by
  refine ⟨?_, ?_, ?_⟩
  · simp [tokenize, tokenizeFrom, step, scanBrace]
  · simp [specBraceClose]
  · simp [scanBrace]

/-- Claim C5: at an unescaped `[`, the scan for the terminating unescaped
`]` starts past a leading `^` (negation does not terminate) and past a
`]` standing as the first content character (which is literal and does
not terminate, also right after a leading `^`); inside the set a `\` and
its following character are skipped as one unit, so an escaped `]` never
closes the set; when a terminator is found the whole run including both
brackets is one CharacterSet span ending at that `]`; when none is found,
`[` alone is a Literal span and scanning resumes.  In particular
`"[]abc]"` tokenizes as one CharacterSet span covering the whole
string. -/
theorem charset_step (chars : List Char) (i : Nat) (h : i < chars.length)
    (hc : chars.getD i ' ' = '[') :
    (scanSet chars (setScanStart chars (i + 1)) < chars.length →
      step chars i =
        (Category.CharacterSet, scanSet chars (setScanStart chars (i + 1)) + 1) ∧
      chars.getD (scanSet chars (setScanStart chars (i + 1))) ' ' = ']') ∧
    (chars.length ≤ scanSet chars (setScanStart chars (i + 1)) →
      step chars i = (Category.Literal, i + 1)) ∧
    (i + 1 < chars.length → chars.getD (i + 1) ' ' = '^' →
      i + 2 ≤ setScanStart chars (i + 1)) ∧
    (i + 1 < chars.length → chars.getD (i + 1) ' ' = ']' →
      i + 2 ≤ setScanStart chars (i + 1)) ∧
    (i + 1 < chars.length → chars.getD (i + 1) ' ' = '^' →
      i + 2 < chars.length → chars.getD (i + 2) ' ' = ']' →
      i + 3 ≤ setScanStart chars (i + 1)) ∧
    (∀ k, k < chars.length → chars.getD k ' ' = '\\' → k + 1 < chars.length →
      scanSet chars k = scanSet chars (k + 2)) ∧
    tokenize ('[' :: ']' :: 'a' :: 'b' :: 'c' :: ']' :: []) =
      ⟨0, 6, Category.CharacterSet⟩ :: [] := by
  refine ⟨?_, ?_, ?_, ?_, ?_, ?_, ?_⟩
  · intro hf
    refine ⟨?_, scanSet_found chars (setScanStart chars (i + 1)) hf⟩
    simp only [step]
    rw [hc]
    simp [hf]
  · intro hnf
    simp only [step]
    rw [hc]
    simp [Nat.not_lt.mpr hnf]
  · intro h1 h2
    simp only [setScanStart]
    rw [h2]
    simp only [h1, true_and, if_true]
    split <;> omega
  · intro h1 h2
    simp only [setScanStart]
    rw [h2]
    split
    · split <;> omega
    · split
      · omega
      · next hn2 => exact absurd ⟨h1, h2⟩ hn2
  · intro h1 h2 h3 h4
    simp only [setScanStart]
    rw [h2]
    simp only [h1, true_and, if_true]
    rw [h4]
    simp [h3]
  · intro k hk1 hk2 hk3
    exact scanSet_escape_skip chars k hk1 hk2 hk3
  · simp [tokenize, tokenizeFrom, step, scanSet, setScanStart]

theorem charset_step_witness :
    step ('[' :: ']' :: 'a' :: 'b' :: 'c' :: ']' :: []) 0 =
      (Category.CharacterSet, 6) := by
  have hcs := charset_step ('[' :: ']' :: 'a' :: 'b' :: 'c' :: ']' :: []) 0
    (by decide) (by decide)
  have h5 : scanSet ('[' :: ']' :: 'a' :: 'b' :: 'c' :: ']' :: [])
      (setScanStart ('[' :: ']' :: 'a' :: 'b' :: 'c' :: ']' :: []) (0 + 1)) = 5 := by
    simp [scanSet, setScanStart]
  have := (hcs.1 (by rw [h5]; decide)).1
  rw [h5] at this
  exact this

theorem filterMap_groupOf_filter_of_none (regex : CompiledRegex)
    (caps : EngineCaptures) (input : List Char) :
    ∀ (L : List Nat) (i : Nat), caps.slot i = none →
      ((L.filterMap (groupOf regex caps input)).filter
        (fun gc => gc.index == i)) = [] := by
  intro L
  induction L with
  | nil => intro i _; rfl
  | cons j L ih =>
    intro i hnone
    rw [List.filterMap_cons]
    cases hg : groupOf regex caps input j with
    | none => exact ih i hnone
    | some gc =>
      obtain ⟨hidx, m, hm, _⟩ := groupOf_eq_some regex caps input j gc hg
      have hij : gc.index ≠ i := by
        rw [hidx]
        rintro rfl
        rw [hnone] at hm
        cases hm
      rw [List.filter_cons, beq_false_of_ne hij]
      simp only [Bool.false_eq_true, if_false]
      exact ih i hnone

/-- Claim C3: `test_pattern` fails exactly when the pattern fails to
compile; a compilation failure surfaces as `Error.InvalidRegex` carrying
the engine's diagnostic, with no (partial) result; a pattern that
compiles but does not match the input is not an error — it yields a
normal result with `matched = false` and no match details. -/
theorem normalizer_failure (newRegex : List Char → Except (List Char) CompiledRegex)
    (input : List Char) (gen : GenerateResponse) :
    ((∃ e, test_pattern newRegex input gen = Except.error e) ↔
      (∃ msg, newRegex gen.pattern = Except.error msg)) ∧
    (∀ msg, newRegex gen.pattern = Except.error msg →
      test_pattern newRegex input gen = Except.error (Error.InvalidRegex msg)) ∧
    (∀ regex, newRegex gen.pattern = Except.ok regex →
      regex.captures input = none →
      ∃ res, test_pattern newRegex input gen = Except.ok res ∧
        res.matched = false ∧ res.match_details = none) := by
  cases hok : newRegex gen.pattern with
  | error msg =>
    have htp : test_pattern newRegex input gen =
        Except.error (Error.InvalidRegex msg) := by
      simp [test_pattern, hok]
    refine ⟨?_, ?_, ?_⟩
    · exact ⟨fun _ => ⟨msg, rfl⟩, fun _ => ⟨Error.InvalidRegex msg, htp⟩⟩
    · intro msg' hmsg
      injection hmsg with hm
      rw [← hm]
      exact htp
    · intro regex hreg
      cases hreg
  | ok regex =>
    refine ⟨?_, ?_, ?_⟩
    · constructor
      · rintro ⟨e, he⟩
        simp [test_pattern, hok] at he
      · rintro ⟨msg, hmsg⟩
        cases hmsg
    · intro msg hmsg
      cases hmsg
    · intro regex' hreg hnone
      injection hreg with hr
      rw [← hr] at hnone
      refine ⟨{ pattern := gen.pattern, test_input := input, matched := false,
                match_details := none, generated := gen }, ?_, rfl, rfl⟩
      simp [test_pattern, hok, hnone]

theorem normalizer_failure_witness :
    test_pattern failNewRegex ('a' :: []) sampleGen =
      Except.error (Error.InvalidRegex ('b' :: 'a' :: 'd' :: [])) ∧
    (∃ res, test_pattern noMatchNewRegex ('a' :: []) sampleGen = Except.ok res ∧
      res.matched = false ∧ res.match_details = none) :=
  ⟨(normalizer_failure failNewRegex ('a' :: []) sampleGen).2.1
      ('b' :: 'a' :: 'd' :: []) rfl,
    (normalizer_failure noMatchNewRegex ('a' :: []) sampleGen).2.2
      noMatchRegex rfl rfl⟩

/-- Claim C2: when the pattern compiles and the engine reports a match,
the emitted groups list contains exactly one entry for every capture
index in `1..=N` (`N = slots - 1`) whose slot participated in the match —
the entry carrying that index, the declared name, and the matched text —
contains no entry and no placeholder for any non-participating index, and
is in strictly ascending index order. -/
theorem groups_spec (newRegex : List Char → Except (List Char) CompiledRegex)
    (input : List Char) (gen : GenerateResponse) (regex : CompiledRegex)
    (caps : EngineCaptures)
    (hok : newRegex gen.pattern = Except.ok regex)
    (hcaps : regex.captures input = some caps) :
    ∃ res d, test_pattern newRegex input gen = Except.ok res ∧
      res.match_details = some d ∧
      (∀ i m, 1 ≤ i → i < regex.slots → caps.slot i = some m →
        d.groups.filter (fun gc => gc.index == i) =
          ⟨i, regex.name i, slotText input m⟩ :: []) ∧
      (∀ i, caps.slot i = none →
        d.groups.filter (fun gc => gc.index == i) = []) ∧
      (∀ gc ∈ d.groups, 1 ≤ gc.index ∧ gc.index < regex.slots ∧
        ∃ m, caps.slot gc.index = some m ∧
          gc = ⟨gc.index, regex.name gc.index, slotText input m⟩) ∧
      List.Pairwise (fun a b => a < b) (d.groups.map GroupCapture.index) := by
  refine ⟨{ pattern := gen.pattern, test_input := input, matched := true,
            match_details := some (buildDetails regex caps input),
            generated := gen }, buildDetails regex caps input,
    by simp [test_pattern, hok, hcaps], rfl, ?_, ?_, ?_, ?_⟩
  · intro i m h1 h2 h3
    show (buildGroups regex caps input).filter (fun gc => gc.index == i) = _
    rw [buildGroups]
    exact filterMap_groupOf_filter_of_mem regex caps input _ i m
      (range_drop_one_nodup regex.slots)
      ((mem_range_drop_one regex.slots i).mpr ⟨h1, h2⟩) h3
  · intro i hnone
    show (buildGroups regex caps input).filter (fun gc => gc.index == i) = []
    rw [buildGroups]
    exact filterMap_groupOf_filter_of_none regex caps input _ i hnone
  · intro gc hmem
    exact mem_buildGroups regex caps input gc hmem
  · exact buildGroups_pairwise regex caps input

theorem groups_spec_witness :
    ∃ res d, test_pattern sampleNewRegex ('a' :: 'a' :: []) sampleGen =
        Except.ok res ∧
      res.match_details = some d ∧
      (∀ i m, 1 ≤ i → i < sampleRegex.slots → sampleCapsA.slot i = some m →
        d.groups.filter (fun gc => gc.index == i) =
          ⟨i, sampleRegex.name i, slotText ('a' :: 'a' :: []) m⟩ :: []) ∧
      (∀ i, sampleCapsA.slot i = none →
        d.groups.filter (fun gc => gc.index == i) = []) ∧
      (∀ gc ∈ d.groups, 1 ≤ gc.index ∧ gc.index < sampleRegex.slots ∧
        ∃ m, sampleCapsA.slot gc.index = some m ∧
          gc = ⟨gc.index, sampleRegex.name gc.index,
            slotText ('a' :: 'a' :: []) m⟩) ∧
      List.Pairwise (fun a b => a < b) (d.groups.map GroupCapture.index) :=
  groups_spec sampleNewRegex ('a' :: 'a' :: []) sampleGen sampleRegex sampleCapsA
    rfl rfl

/-- Claim C8: for a pattern that compiles, the result's `matched` flag is
true exactly when `match_details` is present; and when the engine reports
a match whose slot 0 is present, the details take the full match from
capture slot 0 — `start` and `stop` are slot 0's half-open offsets into
the test input and `full_match` is the input's characters over
`[start, stop)`. -/
theorem match_details_slot0 (newRegex : List Char → Except (List Char) CompiledRegex)
    (input : List Char) (gen : GenerateResponse) (regex : CompiledRegex)
    (hok : newRegex gen.pattern = Except.ok regex) :
    ∃ res, test_pattern newRegex input gen = Except.ok res ∧
      (res.matched = true ↔ res.match_details.isSome = true) ∧
      (∀ caps m, regex.captures input = some caps → caps.slot 0 = some m →
        ∃ d, res.match_details = some d ∧ d.start = m.start ∧ d.stop = m.stop ∧
          d.full_match = (input.drop d.start).take (d.stop - d.start)) := by
  cases hcaps : regex.captures input with
  | none =>
    refine ⟨{ pattern := gen.pattern, test_input := input, matched := false,
              match_details := none, generated := gen },
      by simp [test_pattern, hok, hcaps], by simp, ?_⟩
    intro caps m hc hm
    cases hc
  | some caps =>
    refine ⟨{ pattern := gen.pattern, test_input := input, matched := true,
              match_details := some (buildDetails regex caps input),
              generated := gen },
      by simp [test_pattern, hok, hcaps], by simp, ?_⟩
    intro caps' m hc hm
    injection hc with hcc
    rw [← hcc] at hm
    refine ⟨buildDetails regex caps input, rfl, ?_, ?_, ?_⟩
    · simp [buildDetails, hm]
    · simp [buildDetails, hm]
    · simp [buildDetails, hm, slotText]

theorem match_details_slot0_witness :
    ∃ res, test_pattern sampleNewRegex ('a' :: 'a' :: []) sampleGen =
        Except.ok res ∧
      (res.matched = true ↔ res.match_details.isSome = true) ∧
      (∀ caps m, sampleRegex.captures ('a' :: 'a' :: []) = some caps →
        caps.slot 0 = some m →
        ∃ d, res.match_details = some d ∧ d.start = m.start ∧ d.stop = m.stop ∧
          d.full_match =
            (('a' :: 'a' :: []).drop d.start).take (d.stop - d.start)) :=
  match_details_slot0 sampleNewRegex ('a' :: 'a' :: []) sampleGen sampleRegex rfl

/-- Claim C9: whenever the engine reports a match, the regex crate
guarantees that slot 0 (the whole match) is present in the captures; under
that guarantee the unchecked access `caps.get(0).unwrap()` in
`test_pattern` never hits its `None` branch — `testPatternPanics`, the
exact condition for that panic, is unsatisfiable. -/
theorem unwrap_never_panics (newRegex : List Char → Except (List Char) CompiledRegex)
    (input : List Char) (gen : GenerateResponse)
    (hwf : ∀ regex, newRegex gen.pattern = Except.ok regex → engineWF regex) :
    ¬ testPatternPanics newRegex input gen := by
  rintro ⟨regex, caps, hok, hcaps, hnone⟩
  have hs := hwf regex hok input caps hcaps
  rw [hnone] at hs
  simp at hs

theorem unwrap_never_panics_witness :
    testPatternPanics sampleNewRegex ('a' :: 'a' :: []) sampleGen ↔ False :=
  iff_false_intro (unwrap_never_panics sampleNewRegex ('a' :: 'a' :: []) sampleGen
    (fun regex hreg => by
      obtain rfl := (Except.ok.inj hreg).symm
      intro inp caps hcaps
      obtain rfl := (Option.some.inj hcaps).symm
      rfl))

/-- Claim C7 counterexample: the emitted `GroupCapture` records index,
name, and text only — no `span` field with the captured substring's
offsets exists on it (the spec's own §6 wire record agrees).  Two capture
results whose group 1 matched at different offsets of the input `aa`
(`sampleCapsA`: characters 0–1; `sampleCapsB`: characters 1–2) produce
identical group lists, so the claimed per-group offsets are not carried
anywhere in the output. -/
theorem groupcapture_no_span :
    sampleCapsA.slot 1 ≠ sampleCapsB.slot 1 ∧
    buildGroups sampleRegex sampleCapsA ('a' :: 'a' :: []) =
      buildGroups sampleRegex sampleCapsB ('a' :: 'a' :: []) ∧
    buildGroups sampleRegex sampleCapsA ('a' :: 'a' :: []) =
      ⟨1, none, 'a' :: []⟩ :: [] := by
  refine ⟨by decide, by decide, by decide⟩

/-- Claim C7 (amended): each emitted `GroupCapture` carries exactly the
group's index, its optional declared name, and the matched text (the test
input's characters over the slot's captured range); it carries no span
field — the captured substring's offsets are not part of the emitted
entry, the entry being fully determined by index, name, and value. -/
theorem groupcapture_fields (regex : CompiledRegex) (caps : EngineCaptures)
    (input : List Char) (gc : GroupCapture)
    (hmem : gc ∈ buildGroups regex caps input) :
    ∃ m, caps.slot gc.index = some m ∧ gc.name = regex.name gc.index ∧
      gc.value = slotText input m ∧
      gc = ⟨gc.index, regex.name gc.index, slotText input m⟩ := by
  obtain ⟨h1, h2, m, hm, hgc⟩ := mem_buildGroups regex caps input gc hmem
  exact ⟨m, hm, congrArg GroupCapture.name hgc, congrArg GroupCapture.value hgc, hgc⟩

theorem groupcapture_fields_witness :
    ∃ m, sampleCapsA.slot 1 = some m ∧
      (none : Option String) = sampleRegex.name 1 ∧
      ('a' :: []) = slotText ('a' :: 'a' :: []) m ∧
      (⟨1, none, 'a' :: []⟩ : GroupCapture) =
        ⟨1, sampleRegex.name 1, slotText ('a' :: 'a' :: []) m⟩ :=
  groupcapture_fields sampleRegex sampleCapsA ('a' :: 'a' :: [])
    ⟨1, none, 'a' :: []⟩ (by decide)
